import Mathlib

/-!
# Verification of `calculate_gc_content` (src/native/src/lib.rs)

Shallow embedding of the Rust function

```
pub unsafe extern "C" fn calculate_gc_content(sequence: *const u8, length: usize) -> f64
```

The caller-supplied `(pointer, length)` view is modelled as a `List Nat` of
byte values (each element is one `u8` read from the buffer, so `length` is
the list length).  The `usize` counters are modelled as `Nat`.  The final
`gc_count as f64 / valid_bases as f64` — a single correctly rounded
floating-point division of two exactly represented integer counts — is
modelled as the exact rational quotient, so the result type is `ℚ`.
-/

/-- First arm of the scan loop's `match`: `b'G' | b'C' | b'g' | b'c'`
(ASCII codes 71, 67, 103, 99). -/
def isGCByte (b : Nat) : Bool :=
  b == 71 || b == 67 || b == 103 || b == 99

/-- Second arm of the scan loop's `match`: `b'A' | b'T' | b'a' | b't'`
(ASCII codes 65, 84, 97, 116). -/
def isATByte (b : Nat) : Bool :=
  b == 65 || b == 84 || b == 97 || b == 116

/-- One iteration of the `for &base in sequence_slice` loop: the first arm
increments both counters, the second increments `valid_bases` only, the
wildcard arm leaves the accumulator `(gc_count, valid_bases)` unchanged. -/
def scanStep (acc : Nat × Nat) (b : Nat) : Nat × Nat :=
  if isGCByte b then (acc.1 + 1, acc.2 + 1)
  else if isATByte b then (acc.1, acc.2 + 1)
  else acc

/-- The whole scan loop starting from `gc_count = 0`, `valid_bases = 0`. -/
def scanCounts (s : List Nat) : Nat × Nat :=
  s.foldl scanStep (0, 0)

/-- `calculate_gc_content`, following the source line by line: the early
`if length == 0 { return 0.0 }`, the scan, the `if valid_bases == 0
{ return 0.0 }` guard, and the final floating-point division
`gc_count as f64 / valid_bases as f64` (modelled exactly over `ℚ`). -/
def calculate_gc_content (s : List Nat) : ℚ :=
  if s.length = 0 then 0
  else
    let c := scanCounts s
    if c.2 = 0 then 0
    else (c.1 : ℚ) / (c.2 : ℚ)

/-- The predicate matched by either counting arm of the loop. -/
def isValidByte (b : Nat) : Bool :=
  isGCByte b || isATByte b

/-- ASCII case flip: uppercase letters gain 32, lowercase letters lose 32,
everything else is unchanged. -/
def flipCaseByte (b : Nat) : Nat :=
  if 65 ≤ b ∧ b ≤ 90 then b + 32
  else if 97 ≤ b ∧ b ≤ 122 then b - 32
  else b

/-! ## Helper lemmas -/

theorem isGCByte_iff (b : Nat) :
    isGCByte b = true ↔ b = 71 ∨ b = 67 ∨ b = 103 ∨ b = 99 := by
  simp [isGCByte, or_assoc]

theorem isATByte_iff (b : Nat) :
    isATByte b = true ↔ b = 65 ∨ b = 84 ∨ b = 97 ∨ b = 116 := by
  simp [isATByte, or_assoc]

/-- The two counting arms are mutually exclusive. -/
theorem isGC_and_isAT_false (b : Nat) : (isGCByte b && isATByte b) = false := by
  rcases h : isGCByte b with _ | _
  · simp
  · rcases h2 : isATByte b with _ | _
    · simp
    · rw [isGCByte_iff] at h
      rw [isATByte_iff] at h2
      omega

/-- Running the loop from an arbitrary accumulator adds the per-arm counts
of the remaining input. -/
theorem foldl_scanStep (s : List Nat) (a : Nat × Nat) :
    s.foldl scanStep a = (a.1 + s.countP isGCByte, a.2 + s.countP isValidByte) := by
  induction s generalizing a with
  | nil => simp
  | cons b t ih =>
    rw [List.foldl_cons, ih]
    simp only [List.countP_cons]
    unfold scanStep isValidByte
    rcases h : isGCByte b with _ | _ <;> rcases h2 : isATByte b with _ | _
    · simp [h, h2]
    · simp [h, h2, Prod.ext_iff]
      omega
    · simp [h, h2, Prod.ext_iff]
      omega
    · have h3 := isGC_and_isAT_false b
      rw [h, h2] at h3
      simp at h3

/-- The scan computes the two predicate counts. -/
theorem scanCounts_eq_countP (s : List Nat) :
    scanCounts s = (s.countP isGCByte, s.countP isValidByte) := by
  unfold scanCounts
  rw [foldl_scanStep]
  simp

/-- `gc_count ≤ valid_bases` for every input. -/
theorem countP_gc_le_valid (s : List Nat) :
    s.countP isGCByte ≤ s.countP isValidByte := by
  induction s with
  | nil => simp
  | cons b t ih =>
    simp only [List.countP_cons]
    have : isGCByte b = true → isValidByte b = true := by
      intro h
      simp [isValidByte, h]
    rcases h : isGCByte b with _ | _
    · simp; omega
    · simp [this h]; omega

/-- `calculate_gc_content` is the exact quotient of the two final counters
(in `ℚ`, division by zero is zero, which matches both sentinel returns
since the scan of an empty list yields `(0, 0)` and `gc_count = 0`
whenever `valid_bases = 0`). -/
theorem calculate_eq_div (s : List Nat) :
    calculate_gc_content s =
      ((scanCounts s).1 : ℚ) / ((scanCounts s).2 : ℚ) := by
  simp only [calculate_gc_content]
  by_cases hl : s.length = 0
  · have hs : s = [] := List.length_eq_zero.mp hl
    subst hs
    simp [scanCounts]
  · simp only [if_neg hl]
    by_cases hv : (scanCounts s).2 = 0
    · have h1 := scanCounts_eq_countP s
      have h2 := countP_gc_le_valid s
      have hv2 : s.countP isValidByte = 0 := by
        rw [h1] at hv
        exact hv
      have hgc : (scanCounts s).1 = 0 := by
        rw [h1]
        show s.countP isGCByte = 0
        omega
      simp [hv, hgc]
    · simp only [if_neg hv]

/-! ## Claim theorems -/

/-- C1: every byte falls into exactly one of three disjoint categories —
the `{G,C,g,c}` arm increments both counters, the `{A,T,a,t}` arm
increments `valid_bases` only, and every other byte (ambiguity codes,
gaps, non-letters) changes neither counter; classification is total, with
no unrecognized-symbol error path. -/
theorem gc_classification :
    (∀ b : Nat, (isGCByte b && isATByte b) = false) ∧
    (∀ s : List Nat, scanCounts s = (s.countP isGCByte, s.countP isValidByte)) ∧
    (∀ (s : List Nat) (b : Nat),
      scanCounts (s ++ [b]) =
        if isGCByte b then ((scanCounts s).1 + 1, (scanCounts s).2 + 1)
        else if isATByte b then ((scanCounts s).1, (scanCounts s).2 + 1)
        else scanCounts s) := by
  refine ⟨isGC_and_isAT_false, scanCounts_eq_countP, ?_⟩
  intro s b
  simp only [scanCounts, List.foldl_append]
  rfl

/-- C2: whenever `valid_bases > 0` after the scan, the result is exactly
the division of the two final counters, with no truncation (the single
float division of the two exactly-represented counts is modelled as the
exact rational quotient). -/
theorem gc_ratio_exact_division (s : List Nat) (h : (scanCounts s).2 ≠ 0) :
    calculate_gc_content s = ((scanCounts s).1 : ℚ) / ((scanCounts s).2 : ℚ) :=
  calculate_eq_div s

theorem gc_ratio_exact_division_witness :
    calculate_gc_content [71, 65] =
      ((scanCounts [71, 65]).1 : ℚ) / ((scanCounts [71, 65]).2 : ℚ) :=
  gc_ratio_exact_division [71, 65] (by decide)

/-- C3: for every input byte sequence, of any length including zero, the
result lies in the closed interval `[0, 1]`. -/
theorem gc_result_in_unit_interval (s : List Nat) :
    0 ≤ calculate_gc_content s ∧ calculate_gc_content s ≤ 1 := by
  rw [calculate_eq_div]
  have hle : (scanCounts s).1 ≤ (scanCounts s).2 := by
    rw [scanCounts_eq_countP]
    exact countP_gc_le_valid s
  constructor
  · exact div_nonneg (by positivity) (by positivity)
  · by_cases hv : (scanCounts s).2 = 0
    · simp [hv]
    · rw [div_le_one (by exact_mod_cast Nat.pos_of_ne_zero hv)]
      exact_mod_cast hle

/-- C4: when the length is 0 the function returns 0 at once (the early
`if length == 0` return, before the loop is entered). -/
theorem gc_empty_returns_zero (s : List Nat) (h : s.length = 0) :
    calculate_gc_content s = 0 := by
  simp only [calculate_gc_content, if_pos h]

theorem gc_empty_returns_zero_witness : calculate_gc_content [] = 0 :=
  gc_empty_returns_zero [] rfl

/-- C5: a non-empty input in which no byte matches a recognized nucleotide
symbol yields the 0 sentinel, not an error or a distinct invalid value. -/
theorem gc_no_valid_returns_zero (s : List Nat) (hne : s ≠ [])
    (h : ∀ b ∈ s, isValidByte b = false) :
    calculate_gc_content s = 0 := by
  have hv : (scanCounts s).2 = 0 := by
    rw [scanCounts_eq_countP]
    show s.countP isValidByte = 0
    refine List.countP_eq_zero.mpr ?_
    intro a ha
    simp [h a ha]
  simp only [calculate_gc_content]
  by_cases hl : s.length = 0
  · simp [hl]
  · simp [hl, hv]

theorem gc_no_valid_returns_zero_witness :
    calculate_gc_content [78, 78, 78, 88, 88, 88] = 0 :=
  gc_no_valid_returns_zero [78, 78, 78, 88, 88, 88] (by decide) (by decide)

/-- Case flipping does not change membership in the first match arm. -/
theorem isGCByte_flip (a : Nat) : isGCByte (flipCaseByte a) = isGCByte a := by
  unfold flipCaseByte
  rw [Bool.eq_iff_iff]
  split_ifs <;> simp only [isGCByte_iff] <;> omega

/-- Case flipping does not change membership in the second match arm. -/
theorem isATByte_flip (a : Nat) : isATByte (flipCaseByte a) = isATByte a := by
  unfold flipCaseByte
  rw [Bool.eq_iff_iff]
  split_ifs <;> simp only [isATByte_iff] <;> omega

/-- C6: flipping the case of any or all letters of a sequence consisting
only of A/T/G/C letters (in either case) leaves the result unchanged.
`t` is any sequence obtained from `s` by flipping the case of an
arbitrary subset of its positions. -/
theorem gc_case_invariance (s t : List Nat)
    (hflip : List.Forall₂ (fun a b => b = a ∨ b = flipCaseByte a) s t)
    (hnuc : ∀ b ∈ s, isValidByte b = true) :
    calculate_gc_content t = calculate_gc_content s := by
  have key : t.countP isGCByte = s.countP isGCByte ∧
      t.countP isValidByte = s.countP isValidByte ∧ t.length = s.length := by
    clear hnuc
    induction hflip with
    | nil => simp
    | @cons a b l₁ l₂ h1 h2 ih =>
      have hgc : isGCByte b = isGCByte a := by
        rcases h1 with h | h <;> rw [h]
        exact isGCByte_flip a
      have hat : isATByte b = isATByte a := by
        rcases h1 with h | h <;> rw [h]
        exact isATByte_flip a
      have hval : isValidByte b = isValidByte a := by
        simp [isValidByte, hgc, hat]
      simp [List.countP_cons, hgc, hval, ih.1, ih.2.1, ih.2.2]
  have hsc : scanCounts t = scanCounts s := by
    rw [scanCounts_eq_countP, scanCounts_eq_countP, key.1, key.2.1]
  simp only [calculate_gc_content, hsc, key.2.2]

theorem gc_case_invariance_witness :
    calculate_gc_content [97, 84, 99, 71] = calculate_gc_content [65, 116, 67, 103] :=
  gc_case_invariance [65, 116, 67, 103] [97, 84, 99, 71]
    (List.Forall₂.cons (Or.inr (by decide))
      (List.Forall₂.cons (Or.inr (by decide))
        (List.Forall₂.cons (Or.inr (by decide))
          (List.Forall₂.cons (Or.inr (by decide)) List.Forall₂.nil))))
    (by decide)

/-- C7: splitting a sequence into two contiguous parts, scanning each part
separately, summing the two `(gc_count, valid_bases)` pairs and then
dividing gives the same ratio as the one-pass computation over the whole
sequence; moreover the counters are order-independent: any permutation of
the input yields the same final counters. -/
theorem gc_additivity (u v t : List Nat) (hp : (u ++ v).Perm t) :
    ((scanCounts u).1 + (scanCounts v).1 : ℚ) /
        ((scanCounts u).2 + (scanCounts v).2 : ℚ) =
      calculate_gc_content (u ++ v) ∧
    scanCounts t = scanCounts (u ++ v) := by
  constructor
  · rw [calculate_eq_div]
    have h1 : scanCounts (u ++ v) =
        ((scanCounts u).1 + (scanCounts v).1,
         (scanCounts u).2 + (scanCounts v).2) := by
      simp [scanCounts_eq_countP, List.countP_append]
    rw [h1]
    push_cast
    rfl
  · rw [scanCounts_eq_countP, scanCounts_eq_countP,
      List.Perm.countP_eq isGCByte hp, List.Perm.countP_eq isValidByte hp]

theorem gc_additivity_witness :
    (((scanCounts [71]).1 + (scanCounts [65]).1 : ℚ) /
        ((scanCounts [71]).2 + (scanCounts [65]).2 : ℚ) =
      calculate_gc_content ([71] ++ [65])) ∧
    scanCounts [65, 71] = scanCounts ([71] ++ [65]) :=
  gc_additivity [71] [65] [65, 71] (List.Perm.swap 65 71 [])

/-- C8: at every point of the scan (after the first `n` symbols, for any
`n`) both counters are non-negative, `gc_count` never exceeds
`valid_bases`, and both are bounded by the number of symbols scanned,
itself bounded by the total length. -/
theorem gc_counter_invariant (s : List Nat) (n : Nat) :
    0 ≤ (scanCounts (s.take n)).1 ∧
    (scanCounts (s.take n)).1 ≤ (scanCounts (s.take n)).2 ∧
    (scanCounts (s.take n)).2 ≤ (s.take n).length ∧
    (s.take n).length ≤ s.length := by
  refine ⟨Nat.zero_le _, ?_, ?_, ?_⟩
  · rw [scanCounts_eq_countP]
    exact countP_gc_le_valid (s.take n)
  · rw [scanCounts_eq_countP]
    exact List.countP_le_length _
  · simp [List.length_take]

/-- C9: the function is deterministic — the result depends only on the
input view, so any two invocations on the same input agree. -/
theorem gc_deterministic (s₁ s₂ : List Nat) (h : s₁ = s₂) :
    calculate_gc_content s₁ = calculate_gc_content s₂ := by
  rw [h]

theorem gc_deterministic_witness :
    calculate_gc_content [71, 65] = calculate_gc_content [71, 65] :=
  gc_deterministic [71, 65] [71, 65] rfl

/-- C10: exact boundary values — an input whose valid bases are all G/C
(with at least one valid base) yields exactly 1, and an input with at
least one valid base but no G or C yields exactly 0. -/
theorem gc_exact_boundaries (s : List Nat) :
    ((∃ b ∈ s, isGCByte b = true) → (∀ b ∈ s, isATByte b = false) →
      calculate_gc_content s = 1) ∧
    ((∃ b ∈ s, isATByte b = true) → (∀ b ∈ s, isGCByte b = false) →
      calculate_gc_content s = 0) := by
  constructor
  · intro hex hall
    have hval : s.countP isValidByte = s.countP isGCByte := by
      apply List.countP_congr
      intro a ha
      simp [isValidByte, hall a ha]
    have hpos : 0 < s.countP isGCByte := by
      rw [List.countP_pos_iff]
      exact hex
    rw [calculate_eq_div, scanCounts_eq_countP]
    show (s.countP isGCByte : ℚ) / (s.countP isValidByte : ℚ) = 1
    rw [hval]
    apply div_self
    exact_mod_cast Nat.pos_iff_ne_zero.mp hpos
  · intro hex hall
    have hgc : s.countP isGCByte = 0 := by
      refine List.countP_eq_zero.mpr ?_
      intro a ha
      simp [hall a ha]
    rw [calculate_eq_div, scanCounts_eq_countP]
    show (s.countP isGCByte : ℚ) / (s.countP isValidByte : ℚ) = 0
    rw [hgc]
    simp

theorem gc_exact_boundaries_witness :
    calculate_gc_content [71, 99] = 1 ∧ calculate_gc_content [65, 116] = 0 :=
  ⟨(gc_exact_boundaries [71, 99]).1 ⟨71, by decide, by decide⟩ (by decide),
   (gc_exact_boundaries [65, 116]).2 ⟨65, by decide, by decide⟩ (by decide)⟩
